import Mathlib

/-!
Shallow embedding of the core of the mcp-apple-notes-rag repository
(an MCP server indexing Apple Notes into PostgreSQL and answering
hybrid vector + lexical queries), together with proofs about the
properties its specification states.

The embedding covers:
* the Reciprocal Rank Fusion step of hybridSearch (src/apple-notes.ts),
  modelled as a pure function on the two ranked result lists; the JS
  Map with insertion order is modelled by an association list, and the
  stable Array.prototype.sort by List.insertionSort (insertion sort is
  stable, and a stable sort of a list by a total preorder is unique,
  so any stable sort models the ECMAScript one); floating point scores
  are idealised as rationals (the score ties exercised below are exact
  in binary floating point as well, since 1/120 + 1/120 only doubles a
  value and doubling is exact);
* the indexing pipeline (src/indexer.ts): startFullIndexing, syncNotes
  and processNote, with the external collaborators (JXA note source,
  embedding service, SHA-256 content hash, turndown conversion)
  abstracted as parameters, and per-note failure modelled by Option
  results; the batch-level Promise.allSettled concurrency is modelled
  by in-order sequential processing, which is effect-equivalent here
  because the per-note decisions read only pre-fetched state and the
  counters are tallied per batch;
* the store adapter (src/db.ts): upsertNote (INSERT .. ON CONFLICT
  (apple_note_id) DO UPDATE .. indexed_at = NOW()), getAllNoteHashes,
  deleteNotesByAppleIds and the indexing_jobs row, with NOW() modelled
  as a logical clock.

The four Batteries rational operations marked irreducible are made
semireducible locally so that concrete runs of the model evaluate
under the decide tactic.
-/

attribute [local semireducible] Rat.add Rat.mul Rat.inv Rat.sub

namespace NotesModel

/-! ## Search rows and RRF fusion (src/apple-notes.ts, hybridSearch) -/

/-- A row as returned by vectorSearch / textSearch (src/db.ts); the
native similarity score is ignored by the fusion step, which only
reads title and content. -/
structure SearchRow where
  title : String
  content : String
deriving DecidableEq, Repr

/-- An entry of the scores Map in hybridSearch. -/
structure ScoreEntry where
  score : ℚ
  title : String
  content : String
deriving DecidableEq, Repr

/-- The RRF constant: const k = 60. -/
def rrfK : ℚ := 60

/-- The Map key used by hybridSearch: title, then "::", then content. -/
def rowKey (r : SearchRow) : String := r.title ++ "::" ++ r.content

/-- One forEach body of hybridSearch: add rrfScore to the existing
entry for the key, or insert a fresh entry at the end (a JS Map
preserves insertion order; an update in place keeps the position and
the first-seen title and content). -/
def bump (m : List (String × ScoreEntry)) (key : String) (rrf : ℚ)
    (t c : String) : List (String × ScoreEntry) :=
  match m with
  | [] => [(key, ⟨rrf, t, c⟩)]
  | (k, e) :: rest =>
    if k = key then (k, ⟨e.score + rrf, e.title, e.content⟩) :: rest
    else (k, e) :: bump rest key rrf t c

/-- The indexed forEach of hybridSearch, processing the rows of one
result list starting at 0-based index `idx`, with
rrfScore = 1 / (k + idx). -/
def processRows (m : List (String × ScoreEntry)) (idx : ℕ) :
    List SearchRow → List (String × ScoreEntry)
  | [] => m
  | r :: rs =>
    processRows (bump m (rowKey r) (1 / (rrfK + (idx : ℚ))) r.title r.content)
      (idx + 1) rs

/-- The scores Map after both forEach passes of hybridSearch: vector
results first, then text results. -/
def fusionEntries (v t : List SearchRow) : List (String × ScoreEntry) :=
  processRows (processRows [] 0 v) 0 t

/-- The sort comparator of hybridSearch compares b.score - a.score, so
a may stay before b exactly when b.score is at most a.score. -/
def scoreDescRel (a b : ScoreEntry) : Prop := b.score ≤ a.score

instance : DecidableRel scoreDescRel :=
  fun a b => inferInstanceAs (Decidable (b.score ≤ a.score))

instance : IsTotal ScoreEntry scoreDescRel :=
  ⟨fun a b => le_total b.score a.score⟩

instance : IsTrans ScoreEntry scoreDescRel :=
  ⟨fun _ _ _ h1 h2 => le_trans h2 h1⟩

/-- Sorting the Map values by combined score descending.
Array.prototype.sort is stable, and a stable sort with respect to a
total preorder is unique, so the stable List.insertionSort models it. -/
def sortedEntries (v t : List SearchRow) : List ScoreEntry :=
  ((fusionEntries v t).map Prod.snd).insertionSort scoreDescRel

/-- The RRF fusion step of hybridSearch: sort by combined score and
take the top `limit` results. -/
def hybridSearch (v t : List SearchRow) (limit : ℕ) : List ScoreEntry :=
  (sortedEntries v t).take limit

/-- The keys of a result list, in list order. -/
def keysOf (rs : List SearchRow) : List String := rs.map rowKey

/-- The tie-break key claim C7 attributes to an item: its 0-based
vector-search rank when it appears in the vector list, else its
lexical-search rank. This definition follows the words of the claim,
for comparison against the code; it is not part of the source. -/
def claimKey (v t : List SearchRow) (e : ScoreEntry) : ℕ :=
  if (e.title ++ "::" ++ e.content) ∈ keysOf v then
    (keysOf v).indexOf (e.title ++ "::" ++ e.content)
  else
    (keysOf t).indexOf (e.title ++ "::" ++ e.content)

/-- The ordering claim C7 makes about the output: fusion score strictly
descending, with ties broken by ascending claimKey. Spec-side
formalisation, to be compared with the code. -/
def claimTieBreakHolds (v t : List SearchRow) (limit : ℕ) : Prop :=
  (hybridSearch v t limit).Pairwise
    (fun a b => b.score < a.score ∨ (a.score = b.score ∧ claimKey v t a ≤ claimKey v t b))

instance (v t : List SearchRow) (limit : ℕ) :
    Decidable (claimTieBreakHolds v t limit) := by
  unfold claimTieBreakHolds
  exact List.instDecidablePairwise _

/-- Counterexample input for C7, vector list: sixty distinct filler
rows, then the row x at vector rank 60. -/
def exVecList : List SearchRow :=
  ((List.range 60).map (fun i => ⟨"v" ++ toString i, ""⟩)) ++ [⟨"x", ""⟩]

/-- Counterexample input for C7, lexical list: the row y at lexical
rank 0, fifty-nine of the vector fillers, then x at lexical rank 60.
The fused score of x is 1/120 + 1/120 = 1/60, tying with y whose score
is 1/60; x precedes y in the output (Map insertion order) although the
rank the claim attributes to x (vector rank 60) exceeds the rank it
attributes to y (lexical rank 0). -/
def exTextList : List SearchRow :=
  ⟨"y", ""⟩ :: (((List.range 59).map (fun i => ⟨"v" ++ toString i, ""⟩)) ++ [⟨"x", ""⟩])

/-! ## Notes, rows and the store adapter (src/db.ts) -/

/-- AppleNoteDetails (src/apple-notes.ts): the full form of a note as
fetched from the note source. -/
structure NoteDetails where
  id : String
  title : String
  content : String
  folder : String
  creation_date : String
  modification_date : String
deriving DecidableEq, Repr

/-- AppleNoteSummary (src/apple-notes.ts): the lightweight form used by
incremental sync. -/
structure Summary where
  id : String
  title : String
  folder : String
  modification_date : String
deriving DecidableEq, Repr

/-- The argument record of upsertNote (src/db.ts). -/
structure RowInput where
  apple_note_id : String
  title : String
  content : String
  html_content : Option String
  folder_path : Option String
  creation_date : Option String
  modification_date : Option String
  content_hash : Option String
  embedding : Option (List Int)
deriving DecidableEq, Repr

/-- A row of the notes table (schema.sql); upsertNote always supplies
apple_note_id, so it is modelled as non-null here; indexed_at is a
logical timestamp standing for the TIMESTAMPTZ set via NOW(). -/
structure Row where
  apple_note_id : String
  title : String
  content : String
  html_content : Option String
  folder_path : Option String
  creation_date : Option String
  modification_date : Option String
  content_hash : Option String
  embedding : Option (List Int)
  indexed_at : ℕ
deriving DecidableEq, Repr

/-- The row written by upsertNote at logical time `now`: every content
field comes from the input and indexed_at is set to NOW(), both on
insert and on conflict-update. -/
def applyRow (inp : RowInput) (now : ℕ) : Row :=
  { apple_note_id := inp.apple_note_id
    title := inp.title
    content := inp.content
    html_content := inp.html_content
    folder_path := inp.folder_path
    creation_date := inp.creation_date
    modification_date := inp.modification_date
    content_hash := inp.content_hash
    embedding := inp.embedding
    indexed_at := now }

/-- upsertNote (src/db.ts): INSERT .. ON CONFLICT (apple_note_id)
DO UPDATE SET <all fields>, indexed_at = NOW(). On conflict the
existing row (unique by the apple_note_id constraint) is overwritten
in place; otherwise a new row is appended. -/
def upsertNote (store : List Row) (inp : RowInput) (now : ℕ) : List Row :=
  if store.any (fun r => decide (r.apple_note_id = inp.apple_note_id)) then
    store.map (fun r =>
      if r.apple_note_id = inp.apple_note_id then applyRow inp now else r)
  else store ++ [applyRow inp now]

/-- getAllNoteHashes (src/db.ts): the apple_note_id to content_hash
map, skipping rows whose content_hash is NULL (apple_note_id is
non-null throughout this model, matching every row upsertNote ever
writes). -/
def getAllNoteHashes (store : List Row) : List (String × String) :=
  store.filterMap (fun r => r.content_hash.map (fun h => (r.apple_note_id, h)))

/-- deleteNotesByAppleIds (src/db.ts): DELETE FROM notes WHERE
apple_note_id = ANY(ids). -/
def deleteNotesByAppleIds (store : List Row) (ids : List String) : List Row :=
  store.filter (fun r => decide (r.apple_note_id ∉ ids))

/-- The rows of the store carrying a given apple_note_id (used to state
frame conditions; with unique ids this list has at most one element). -/
def rowsFor (store : List Row) (id : String) : List Row :=
  store.filter (fun r => decide (r.apple_note_id = id))

/-- The UNIQUE constraint on notes.apple_note_id (schema.sql). -/
def UniqueIds (store : List Row) : Prop := (store.map Row.apple_note_id).Nodup

instance (store : List Row) : Decidable (UniqueIds store) :=
  inferInstanceAs (Decidable ((store.map Row.apple_note_id).Nodup))

/-! ## The indexer (src/indexer.ts) -/

/-- BATCH_SIZE = 50. -/
def BATCH_SIZE : ℕ := 50

/-- Structural worker for toBatches; the fuel argument makes the
recursion structural (and hence kernel-computable), and is always
called with at least the length of the list, so the out-of-fuel arm is
unreachable. -/
def toBatchesGo : ℕ → List α → List (List α)
  | _, [] => []
  | 0, _ :: _ => []
  | fuel + 1, a :: as =>
    (a :: as).take BATCH_SIZE :: toBatchesGo fuel ((a :: as).drop BATCH_SIZE)

/-- The batching loop `for (i = 0; i < n; i += BATCH_SIZE)` with
`slice(i, i + BATCH_SIZE)`. -/
def toBatches (l : List α) : List (List α) := toBatchesGo l.length l

/-- The external collaborators of per-note processing: turndown
conversion, generateContentHash (SHA-256 prefix), and the embedding
service; embed returns none when generateEmbedding throws. -/
structure Env where
  toMarkdown : String → String
  contentHash : String → String
  embed : String → Option (List Int)
deriving Inhabited

/-- JS String.prototype.trim, modelled on the character list (leading
and trailing whitespace removed); executable, unlike String.trim whose
position arithmetic is opaque to the kernel. -/
def trimString (s : String) : String :=
  String.mk (((s.data.dropWhile Char.isWhitespace).reverse.dropWhile
    Char.isWhitespace).reverse)

/-- prepareTextForEmbedding (src/embeddings.ts): title, a blank line,
then the content, trimmed. -/
def prepareTextForEmbedding (title content : String) : String :=
  trimString (title ++ "\n\n" ++ content)

/-- processNote (src/indexer.ts): convert HTML to Markdown, hash the
raw content, embed title plus Markdown, and build the upsertNote
argument; returns none when the embedding call throws (the only
fallible step in this model: htmlToMarkdown catches its own errors and
hashing is pure). -/
def processNote (env : Env) (note : NoteDetails) : Option RowInput :=
  let markdownContent := env.toMarkdown note.content
  let contentHash := env.contentHash note.content
  let textForEmbedding := prepareTextForEmbedding note.title markdownContent
  match env.embed textForEmbedding with
  | none => none
  | some embedding => some
    { apple_note_id := note.id
      title := note.title
      content := markdownContent
      html_content := some note.content
      folder_path := some note.folder
      creation_date := some note.creation_date
      modification_date := some note.modification_date
      content_hash := some contentHash
      embedding := some embedding }

/-- The per-run mutable state of an indexing loop: the notes table, the
logical clock, and the two counters. Snapshots are kept separately at
the batch level. -/
structure CoreState where
  store : List Row
  now : ℕ
  processed : ℕ
  failed : ℕ
deriving DecidableEq, Repr

/-- One settled promise of a full-indexing batch: on fulfilment the
note was upserted and processedNotes incremented; on rejection only
failedNotes is incremented. -/
def stepNote (env : Env) (st : CoreState) (note : NoteDetails) : CoreState :=
  match processNote env note with
  | some inp =>
    { store := upsertNote st.store inp st.now
      now := st.now + 1
      processed := st.processed + 1
      failed := st.failed }
  | none =>
    { st with failed := st.failed + 1 }

/-- One batch of an indexing loop: settle every promise of the batch,
then record the updateJobProgress snapshot (processed, failed). The
parameter `step` is the per-item body; the snapshot list grows by one
pair per batch, exactly as updateJobProgress is called once per
batch. -/
def stepBatch (step : CoreState → β → CoreState)
    (st : CoreState × List (ℕ × ℕ)) (b : List β) : CoreState × List (ℕ × ℕ) :=
  let c := b.foldl step st.1
  (c, st.2 ++ [(c.processed, c.failed)])

/-- The result record of startFullIndexing / syncNotes, together with
the observable progress snapshots and the final notes table. -/
structure RunResult where
  total : ℕ
  processed : ℕ
  failed : ℕ
  status : String
  snapshots : List (ℕ × ℕ)
  finalStore : List Row
deriving Repr

/-- startFullIndexing (src/indexer.ts): one job over all fetched notes,
batches of BATCH_SIZE, Promise.allSettled per batch, updateJobProgress
after each batch, completeJob at the end. The status ternary of line
89 is mirrored as written: it yields "completed" in both arms. -/
def startFullIndexing (env : Env) (notes : List NoteDetails)
    (store : List Row) (now : ℕ) : RunResult :=
  let st := (toBatches notes).foldl (stepBatch (stepNote env)) (⟨store, now, 0, 0⟩, [])
  { total := notes.length
    processed := st.1.processed
    failed := st.1.failed
    status := if st.1.failed = 0 then "completed" else "completed"
    snapshots := st.2
    finalStore := st.1.store }

/-- What fetching one note body can observe during sync:
getNoteDetailsById resolves with the details, resolves with null (its
internal JXA catch), or rejects. -/
inductive FetchResult where
  | fetchError
  | notFound
  | found (d : NoteDetails)
deriving DecidableEq, Repr

/-- The collaborators of syncNotes: those of full indexing plus the
per-id body fetch. -/
structure SyncEnv extends Env where
  fetch : String → FetchResult

/-- The deletion set of syncNotes: ids present in the stored hash map
but absent from the current summaries. -/
def syncDeleteSet (summaries : List Summary) (hashes : List (String × String)) :
    List String :=
  (hashes.map Prod.fst).filter (fun id => decide (id ∉ summaries.map Summary.id))

/-- The update candidate set of syncNotes: every summary id (the source
pushes the id in both the new-note and the possibly-modified branch;
the hash comparison is deferred to after the body fetch). -/
def syncUpdateSet (summaries : List Summary) : List String :=
  summaries.map Summary.id

/-- The outcome of one update-candidate promise of syncNotes:
fulfilled says whether the promise settled without error, embedCalls
counts generateEmbedding invocations for this note, and upserted is
the row written through upsertNote, when any. -/
structure CandidateResult where
  fulfilled : Bool
  embedCalls : ℕ
  upserted : Option RowInput
deriving DecidableEq, Repr

/-- One update candidate of syncNotes: fetch the body (null resolves
the promise with nothing done), hash the fresh content, and only when
the fresh hash differs from the stored one run processNote (which
embeds once and, on success, upserts); a thrown embedding error
rejects the promise. -/
def syncCandidate (env : SyncEnv) (hashes : List (String × String))
    (noteId : String) : CandidateResult :=
  match env.fetch noteId with
  | .fetchError => ⟨false, 0, none⟩
  | .notFound => ⟨true, 0, none⟩
  | .found d =>
    let contentHash := env.contentHash d.content
    let existingHash := hashes.lookup noteId
    if existingHash ≠ some contentHash then
      match processNote env.toEnv d with
      | some inp => ⟨true, 1, some inp⟩
      | none => ⟨false, 1, none⟩
    else ⟨true, 0, none⟩

/-- One settled update-candidate promise of syncNotes, as a CoreState
transition. -/
def syncStepNote (env : SyncEnv) (hashes : List (String × String))
    (st : CoreState) (noteId : String) : CoreState :=
  let r := syncCandidate env hashes noteId
  let store' := match r.upserted with
    | some inp => upsertNote st.store inp st.now
    | none => st.store
  let now' := match r.upserted with
    | some _ => st.now + 1
    | none => st.now
  if r.fulfilled then
    { store := store', now := now', processed := st.processed + 1, failed := st.failed }
  else
    { store := store', now := now', processed := st.processed, failed := st.failed + 1 }

/-- syncNotes (src/indexer.ts): compute the deletion set and the update
candidates from the summaries and the stored hash map, create the job
with total = updates + deletes, delete the deletion set in one batch
operation (counting it as processed and snapshotting, when non-empty),
then process the update candidates in batches like full indexing, and
complete the job as "completed". -/
def syncNotes (env : SyncEnv) (summaries : List Summary)
    (store : List Row) (now : ℕ) : RunResult :=
  let hashes := getAllNoteHashes store
  let notesToDelete := syncDeleteSet summaries hashes
  let notesToUpdate := syncUpdateSet summaries
  let total := notesToUpdate.length + notesToDelete.length
  let store1 := deleteNotesByAppleIds store notesToDelete
  let p0 := notesToDelete.length
  let snaps0 : List (ℕ × ℕ) := if notesToDelete.length > 0 then [(p0, 0)] else []
  let st := (toBatches notesToUpdate).foldl
    (stepBatch (syncStepNote env hashes)) (⟨store1, now, p0, 0⟩, snaps0)
  { total := total
    processed := st.1.processed
    failed := st.1.failed
    status := "completed"
    snapshots := st.2
    finalStore := st.1.store }

/-! ## The job record under whole-job faults (src/indexer.ts, src/db.ts) -/

/-- A row of indexing_jobs (schema.sql / src/db.ts), restricted to the
fields the claims mention. -/
structure JobRecord where
  status : String
  total : ℕ
  processed : ℕ
  failed : ℕ
  completedAt : Option ℕ
deriving DecidableEq, Repr

/-- createIndexingJob (src/db.ts): INSERT with status running. -/
def createIndexingJob (total : ℕ) : JobRecord :=
  ⟨"running", total, 0, 0, none⟩

/-- updateJobProgress (src/db.ts): SET processed_notes, failed_notes. -/
def updateJobProgress (j : JobRecord) (p f : ℕ) : JobRecord :=
  { j with processed := p, failed := f }

/-- completeJob (src/db.ts): SET status, completed_at = NOW(). -/
def completeJob (j : JobRecord) (status : String) (now : ℕ) : JobRecord :=
  { j with status := status, completedAt := some now }

/-- The per-batch outcome tally of a full-indexing batch. -/
def batchTally (env : Env) (b : List NoteDetails) : ℕ × ℕ :=
  (b.countP (fun n => (processNote env n).isSome),
   b.countP (fun n => (processNote env n).isNone))

/-- The store-facing job lifecycle of startFullIndexing under a store
that may become unreachable: after the job row exists, each store call
(one updateJobProgress per batch, then the final completeJob) is
numbered, and `reachable k` says whether call k succeeds. The source
has no try/catch, so a store error propagates to the caller with the
job row left exactly as it was (Except.error), and completeJob is only
ever invoked with "completed" (the line 89 ternary yields "completed"
in both arms); no code path invokes completeJob with "failed". -/
def fullIndexingJobGo (reachable : ℕ → Bool) (j : JobRecord)
    (opIdx p f : ℕ) : List (ℕ × ℕ) → Except JobRecord JobRecord
  | [] =>
    if reachable opIdx then
      Except.ok (completeJob j (if f = 0 then "completed" else "completed") opIdx)
    else Except.error j
  | t :: ts =>
    let p' := p + t.1
    let f' := f + t.2
    if reachable opIdx then
      fullIndexingJobGo reachable (updateJobProgress j p' f') (opIdx + 1) p' f' ts
    else Except.error j

/-- startFullIndexing as observed through the job row, with the store
reachability schedule made explicit. -/
def fullIndexingWithFaults (env : Env) (notes : List NoteDetails)
    (reachable : ℕ → Bool) : Except JobRecord JobRecord :=
  fullIndexingJobGo reachable (createIndexingJob notes.length) 0 0 0
    ((toBatches notes).map (batchTally env))

/-- A trivial environment for concrete runs: identity conversion and
hash, embedding succeeding with an empty vector. -/
def exEnv : Env :=
  { toMarkdown := fun s => s
    contentHash := fun s => s
    embed := fun _ => some [] }

/-- A one-note corpus for concrete runs. -/
def exNote : NoteDetails :=
  ⟨"note-1", "Title", "<p>Body</p>", "Notes", "2024-01-01", "2024-01-02"⟩

/-- The rows of the RRF worked example of the specification: vector
list [A, B, C], lexical list [B, A, D]. -/
def exA : SearchRow := ⟨"A", ""⟩

def exB : SearchRow := ⟨"B", ""⟩

def exC : SearchRow := ⟨"C", ""⟩

def exD : SearchRow := ⟨"D", ""⟩

/-- Three notes for the batch-failure-isolation witness; the middle one
is the one whose embedding call throws. -/
def exNoteA : NoteDetails := ⟨"na", "TA", "bodya", "Notes", "d1", "d2"⟩

def exNoteBad : NoteDetails := ⟨"nb", "TBad", "badbody", "Notes", "d1", "d2"⟩

def exNoteC : NoteDetails := ⟨"nc", "TC", "bodyc", "Notes", "d1", "d2"⟩

/-- An environment whose embedding service throws exactly on the text
prepared for exNoteBad. -/
def exEnvBad : Env :=
  { toMarkdown := fun s => s
    contentHash := fun s => s
    embed := fun s => if s = "TBad\n\nbadbody" then none else some [] }

/-- A stored row for the note n1 whose content hash (under the identity
hash of exSyncEnv) already matches the body the source returns. -/
def exRowN1 : Row :=
  { apple_note_id := "n1", title := "T1", content := "body1"
    html_content := some "body1", folder_path := some "Notes"
    creation_date := some "d1", modification_date := some "d2"
    content_hash := some "body1", embedding := some [], indexed_at := 0 }

/-- A stored row for a note that no longer exists in the source. -/
def exRowGone : Row :=
  { apple_note_id := "gone", title := "TG", content := "old"
    html_content := some "old", folder_path := some "Notes"
    creation_date := some "d1", modification_date := some "d2"
    content_hash := some "old", embedding := some [], indexed_at := 0 }

/-- The store for the sync witnesses: one up-to-date note and one
deleted note. -/
def exStore : List Row := [exRowN1, exRowGone]

/-- The current summaries for the sync witnesses: n1 still present and
unchanged, n2 present but its body fetch resolves null. -/
def exSummaries : List Summary :=
  [⟨"n1", "T1", "Notes", "d2"⟩, ⟨"n2", "T2", "Notes", "d2"⟩]

/-- The sync environment for the witnesses: identity conversion and
hash, embedding always succeeding, n1 fetching its unchanged body, n2
resolving null (not-found), anything else rejecting. -/
def exSyncEnv : SyncEnv :=
  { toMarkdown := fun s => s
    contentHash := fun s => s
    embed := fun _ => some []
    fetch := fun id =>
      if id = "n1" then .found ⟨"n1", "T1", "body1", "Notes", "d1", "d2"⟩
      else if id = "n2" then .notFound
      else .fetchError }

/-- An upsert input for the idempotence witness. -/
def exInp : RowInput :=
  { apple_note_id := "n1", title := "T1", content := "md"
    html_content := some "<p>md</p>", folder_path := some "Notes"
    creation_date := some "d1", modification_date := some "d2"
    content_hash := some "h1", embedding := some [] }

/-! ## Batching lemmas -/

theorem toBatchesGo_congr :
    ∀ (f1 f2 : ℕ) (l : List α), l.length ≤ f1 → l.length ≤ f2 →
      toBatchesGo f1 l = toBatchesGo f2 l := by
  intro f1
  induction f1 with
  | zero =>
    intro f2 l h1 _
    have : l = [] := List.length_eq_zero.mp (Nat.le_zero.mp h1)
    subst this
    cases f2 <;> rfl
  | succ g ih =>
    intro f2 l h1 h2
    cases l with
    | nil => cases f2 <;> rfl
    | cons a as =>
      cases f2 with
      | zero => simp at h2
      | succ g2 =>
        simp only [toBatchesGo]
        congr 1
        apply ih
        · simp only [List.length_drop, List.length_cons, BATCH_SIZE]
          simp only [List.length_cons] at h1
          omega
        · simp only [List.length_drop, List.length_cons, BATCH_SIZE]
          simp only [List.length_cons] at h2
          omega

theorem toBatches_cons (a : α) (as : List α) :
    toBatches (a :: as) =
      (a :: as).take BATCH_SIZE :: toBatches ((a :: as).drop BATCH_SIZE) := by
  show toBatchesGo (as.length + 1) (a :: as) = _
  simp only [toBatchesGo]
  congr 1
  apply toBatchesGo_congr
  · simp only [List.length_drop, List.length_cons, BATCH_SIZE]
    omega
  · exact le_rfl

theorem toBatches_flatten (l : List α) : (toBatches l).flatten = l := by
  cases l with
  | nil => rfl
  | cons a as =>
    rw [toBatches_cons, List.flatten_cons,
      toBatches_flatten ((a :: as).drop BATCH_SIZE), List.take_append_drop]
termination_by l.length
decreasing_by
  simp only [List.length_drop, List.length_cons, BATCH_SIZE]
  omega

/-! ## Store adapter lemmas -/

theorem rowsFor_eq_nil_of_not_mem (s : List Row) (id : String)
    (h : id ∉ s.map Row.apple_note_id) : rowsFor s id = [] := by
  rw [rowsFor, List.filter_eq_nil_iff]
  intro r hr
  simp only [decide_eq_true_eq]
  intro heq
  exact h (List.mem_map.mpr ⟨r, hr, heq⟩)

theorem upsert_cond_iff (s : List Row) (inp : RowInput) :
    (s.any (fun r => decide (r.apple_note_id = inp.apple_note_id)) = true) ↔
      inp.apple_note_id ∈ s.map Row.apple_note_id := by
  simp only [List.any_eq_true, decide_eq_true_eq, List.mem_map]

theorem rowsFor_map_overwrite (inp : RowInput) (now : ℕ) :
    ∀ (s : List Row), UniqueIds s → inp.apple_note_id ∈ s.map Row.apple_note_id →
      rowsFor (s.map (fun r =>
          if r.apple_note_id = inp.apple_note_id then applyRow inp now else r))
        inp.apple_note_id = [applyRow inp now] := by
  intro s
  induction s with
  | nil => simp
  | cons r rs ih =>
    intro hu hm
    rw [UniqueIds, List.map_cons, List.nodup_cons] at hu
    by_cases hr : r.apple_note_id = inp.apple_note_id
    · have hnot : inp.apple_note_id ∉ rs.map Row.apple_note_id := by
        rw [← hr]
        exact hu.1
      have htail : rowsFor (rs.map (fun r =>
          if r.apple_note_id = inp.apple_note_id then applyRow inp now else r))
          inp.apple_note_id = [] := by
        rw [rowsFor, List.filter_eq_nil_iff]
        intro x hx
        rcases List.mem_map.mp hx with ⟨r2, hr2, rfl⟩
        have hne : r2.apple_note_id ≠ inp.apple_note_id := by
          intro he
          exact hnot (List.mem_map.mpr ⟨r2, hr2, he⟩)
        simp only [if_neg hne, decide_eq_true_eq]
        exact hne
      rw [List.map_cons, if_pos hr, rowsFor, List.filter_cons]
      rw [rowsFor] at htail
      rw [htail]
      simp [applyRow]
    · have hm2 : inp.apple_note_id ∈ rs.map Row.apple_note_id := by
        rcases List.mem_map.mp hm with ⟨r2, hr2, he⟩
        rcases List.mem_cons.mp hr2 with h1 | h2
        · subst h1
          exact absurd he hr
        · exact List.mem_map.mpr ⟨r2, h2, he⟩
      rw [List.map_cons, if_neg hr, rowsFor]
      simp only [List.filter_cons, decide_eq_true_eq]
      rw [if_neg hr]
      exact ih (by rw [UniqueIds]; exact hu.2) hm2

theorem rowsFor_upsert_self (s : List Row) (inp : RowInput) (now : ℕ)
    (h : UniqueIds s) :
    rowsFor (upsertNote s inp now) inp.apple_note_id = [applyRow inp now] := by
  rw [upsertNote]
  split
  case isTrue hany =>
    exact rowsFor_map_overwrite inp now s h ((upsert_cond_iff s inp).mp hany)
  case isFalse hany =>
    have hnm : inp.apple_note_id ∉ s.map Row.apple_note_id := by
      intro hm
      exact hany ((upsert_cond_iff s inp).mpr hm)
    rw [rowsFor, List.filter_append,
      ← rowsFor, rowsFor_eq_nil_of_not_mem s _ hnm]
    simp [rowsFor, applyRow]

theorem upsertNote_map_id (s : List Row) (inp : RowInput) (now : ℕ) :
    (upsertNote s inp now).map Row.apple_note_id =
      if inp.apple_note_id ∈ s.map Row.apple_note_id then s.map Row.apple_note_id
      else s.map Row.apple_note_id ++ [inp.apple_note_id] := by
  rw [upsertNote]
  split
  case isTrue hany =>
    rw [if_pos ((upsert_cond_iff s inp).mp hany), List.map_map]
    apply List.map_congr_left
    intro r _
    by_cases hr : r.apple_note_id = inp.apple_note_id
    · simp [Function.comp, hr, applyRow]
    · simp [Function.comp, hr]
  case isFalse hany =>
    rw [if_neg (fun hm => hany ((upsert_cond_iff s inp).mpr hm))]
    simp [applyRow]

theorem upsertNote_uniqueIds (s : List Row) (inp : RowInput) (now : ℕ)
    (h : UniqueIds s) : UniqueIds (upsertNote s inp now) := by
  rw [UniqueIds, upsertNote_map_id]
  split
  case isTrue => exact h
  case isFalse hnm =>
    simp only [List.nodup_append, List.nodup_cons, List.not_mem_nil,
      not_false_iff, List.nodup_nil, and_true, true_and]
    constructor
    · exact h
    · intro x hx hx2
      simp only [List.mem_singleton] at hx2
      subst hx2
      exact hnm hx

theorem upsertNote_length_of_mem (s : List Row) (inp : RowInput) (now : ℕ)
    (h : inp.apple_note_id ∈ s.map Row.apple_note_id) :
    (upsertNote s inp now).length = s.length := by
  rw [upsertNote, if_pos]
  · exact List.length_map s _
  · exact (upsert_cond_iff s inp).mpr h

theorem mem_map_id_upsert_self (s : List Row) (inp : RowInput) (now : ℕ) :
    inp.apple_note_id ∈ (upsertNote s inp now).map Row.apple_note_id := by
  rw [upsertNote_map_id]
  split
  case isTrue h => exact h
  case isFalse h => simp

/-- Claim C8: upsert is idempotent keyed on the external id. Upserting
the same note twice leaves exactly one stored row for its
apple_note_id, the second upsert creates no additional row, the
uniqueness of apple_note_id is preserved, and indexed_at is refreshed
to the current clock by each upsert (the row after the first upsert
carries t1, after the second t2) whether or not any content changed. -/
theorem upsert_idempotent (store : List Row) (inp : RowInput) (t1 t2 : ℕ)
    (h : UniqueIds store) :
    rowsFor (upsertNote store inp t1) inp.apple_note_id = [applyRow inp t1] ∧
    rowsFor (upsertNote (upsertNote store inp t1) inp t2) inp.apple_note_id
      = [applyRow inp t2] ∧
    (upsertNote (upsertNote store inp t1) inp t2).length
      = (upsertNote store inp t1).length ∧
    UniqueIds (upsertNote (upsertNote store inp t1) inp t2) := by
  have h1 : UniqueIds (upsertNote store inp t1) := upsertNote_uniqueIds store inp t1 h
  refine ⟨rowsFor_upsert_self store inp t1 h, rowsFor_upsert_self _ inp t2 h1, ?_, ?_⟩
  · exact upsertNote_length_of_mem _ inp t2 (mem_map_id_upsert_self store inp t1)
  · exact upsertNote_uniqueIds _ inp t2 h1

/-- Witness for upsert_idempotent at a concrete store and input. -/
theorem upsert_idempotent_witness :
    UniqueIds [exRowGone] ∧
    rowsFor (upsertNote (upsertNote [exRowGone] exInp 5) exInp 9) "n1"
      = [applyRow exInp 9] := by
  constructor
  · decide
  · exact (upsert_idempotent [exRowGone] exInp 5 9 (by decide)).2.1

/-! ## RRF fusion identity (claim C9) -/

/-- Claim C9: fusion identity is the concatenated string
title ++ "::" ++ content, not the (title, content) pair: the two
distinct rows ("a::b", "c") and ("a", "b::c") share the key
"a::b::c" and are merged into a single fused item, whose score is the
sum of both reciprocal-rank terms (here 1/(60+0) from each list) and
whose reported title and content are those of the first-seen row. -/
theorem fusion_identity_concatenated_key :
    hybridSearch [⟨"a::b", "c"⟩] [⟨"a", "b::c"⟩] 20 =
      [⟨1 / 60 + 1 / 60, "a::b", "c"⟩] ∧
    (⟨"a::b", "c"⟩ : SearchRow) ≠ ⟨"a", "b::c"⟩ ∧
    rowKey ⟨"a::b", "c"⟩ = rowKey ⟨"a", "b::c"⟩ := by
  refine ⟨by decide, by decide, by decide⟩

/-! ## Job lifecycle under whole-job faults (claim C6) -/

theorem fullIndexingJobGo_error_status (reachable : ℕ → Bool) :
    ∀ (ts : List (ℕ × ℕ)) (j : JobRecord) (opIdx p f : ℕ) (j' : JobRecord),
      fullIndexingJobGo reachable j opIdx p f ts = Except.error j' →
      j'.status = j.status := by
  intro ts
  induction ts with
  | nil =>
    intro j opIdx p f j' h
    simp only [fullIndexingJobGo] at h
    split at h
    · exact Except.noConfusion h
    · cases h
      rfl
  | cons t ts ih =>
    intro j opIdx p f j' h
    simp only [fullIndexingJobGo] at h
    split at h
    · exact ih (updateJobProgress j (p + t.1) (f + t.2)) (opIdx + 1)
        (p + t.1) (f + t.2) j' h
    · cases h
      rfl

theorem fullIndexingJobGo_ok_status (reachable : ℕ → Bool) :
    ∀ (ts : List (ℕ × ℕ)) (j : JobRecord) (opIdx p f : ℕ) (j' : JobRecord),
      fullIndexingJobGo reachable j opIdx p f ts = Except.ok j' →
      j'.status = "completed" := by
  intro ts
  induction ts with
  | nil =>
    intro j opIdx p f j' h
    simp only [fullIndexingJobGo] at h
    split at h
    · cases h
      by_cases hf : f = 0 <;> simp [completeJob, hf]
    · exact Except.noConfusion h
  | cons t ts ih =>
    intro j opIdx p f j' h
    simp only [fullIndexingJobGo] at h
    split at h
    · exact ih (updateJobProgress j (p + t.1) (f + t.2)) (opIdx + 1)
        (p + t.1) (f + t.2) j' h
    · exact Except.noConfusion h

theorem fullIndexingJobGo_ok_of_reachable (reachable : ℕ → Bool)
    (hr : ∀ k, reachable k = true) :
    ∀ (ts : List (ℕ × ℕ)) (j : JobRecord) (opIdx p f : ℕ),
      ∃ j', fullIndexingJobGo reachable j opIdx p f ts = Except.ok j' := by
  intro ts
  induction ts with
  | nil =>
    intro j opIdx p f
    refine ⟨completeJob j (if f = 0 then "completed" else "completed") opIdx, ?_⟩
    simp only [fullIndexingJobGo, if_pos (hr opIdx)]
  | cons t ts ih =>
    intro j opIdx p f
    rcases ih (updateJobProgress j (p + t.1) (f + t.2)) (opIdx + 1) (p + t.1) (f + t.2)
      with ⟨j', hj'⟩
    refine ⟨j', ?_⟩
    simp only [fullIndexingJobGo, if_pos (hr opIdx)]
    exact hj'

/-- Counterexample to claim C6: the store becomes unreachable right
after the job row is created (every subsequent store call fails); the
run aborts with the error surfaced, but the job row is left in status
"running" — it is never transitioned to "failed". -/
theorem job_failed_status_counterexample :
    fullIndexingWithFaults exEnv [exNote] (fun _ => false) =
      Except.error (createIndexingJob 1) ∧
    (createIndexingJob 1).status = "running" ∧
    (createIndexingJob 1).status ≠ "failed" := by
  refine ⟨rfl, rfl, by decide⟩

/-- Claim C6 (amended): when a whole-job fault occurs mid-run the run
aborts and the error surfaces to the caller, but the job is left in
status "running" — the source has no handler transitioning it to
"failed", and completeJob is only ever invoked with "completed", so no
job ever reaches status "failed": a faulted run leaves "running", a
completed run (store reachable throughout) yields "completed"
regardless of the count of per-note failures. -/
theorem job_never_failed (env : Env) (notes : List NoteDetails)
    (reachable : ℕ → Bool) :
    (∀ j, fullIndexingWithFaults env notes reachable = Except.error j →
      j.status = "running") ∧
    (∀ j, fullIndexingWithFaults env notes reachable = Except.ok j →
      j.status = "completed") ∧
    ((∀ k, reachable k = true) →
      ∃ j, fullIndexingWithFaults env notes reachable = Except.ok j ∧
        j.status = "completed") := by
  refine ⟨?_, ?_, ?_⟩
  · intro j h
    exact fullIndexingJobGo_error_status reachable _ _ _ _ _ _ h
  · intro j h
    exact fullIndexingJobGo_ok_status reachable _ _ _ _ _ _ h
  · intro hr
    rcases fullIndexingJobGo_ok_of_reachable reachable hr
      ((toBatches notes).map (batchTally env)) (createIndexingJob notes.length) 0 0 0
      with ⟨j', hj'⟩
    exact ⟨j', hj', fullIndexingJobGo_ok_status reachable _ _ _ _ _ _ hj'⟩

/-! ## Batch progress lemmas (claim C2) -/

theorem foldl_step_pf {β : Type} (step : CoreState → β → CoreState)
    (hstep : ∀ c x, (step c x).processed + (step c x).failed
      = c.processed + c.failed + 1) :
    ∀ (l : List β) (c : CoreState),
      (l.foldl step c).processed + (l.foldl step c).failed
        = c.processed + c.failed + l.length := by
  intro l
  induction l with
  | nil =>
    intro c
    simp
  | cons x xs ih =>
    intro c
    rw [List.foldl_cons, ih (step c x), hstep c x]
    simp only [List.length_cons]
    omega

theorem foldl_batches_fst {β : Type} (step : CoreState → β → CoreState) :
    ∀ (bs : List (List β)) (c : CoreState) (L : List (ℕ × ℕ)),
      (bs.foldl (stepBatch step) (c, L)).1 = bs.flatten.foldl step c := by
  intro bs
  induction bs with
  | nil =>
    intro c L
    rfl
  | cons b bs ih =>
    intro c L
    simp only [List.foldl_cons, List.flatten_cons, List.foldl_append, stepBatch]
    exact ih _ _

theorem foldl_batches_snapshots {β : Type} (step : CoreState → β → CoreState)
    (hstep : ∀ c x, (step c x).processed + (step c x).failed
      = c.processed + c.failed + 1) :
    ∀ (bs : List (List β)) (c : CoreState) (L : List (ℕ × ℕ)) (s : ℕ × ℕ),
      s ∈ (bs.foldl (stepBatch step) (c, L)).2 →
      s ∈ L ∨ s.1 + s.2 ≤ c.processed + c.failed + bs.flatten.length := by
  intro bs
  induction bs with
  | nil =>
    intro c L s hs
    exact Or.inl hs
  | cons b bs ih =>
    intro c L s hs
    simp only [List.foldl_cons, stepBatch] at hs
    rcases ih _ _ _ hs with hmem | hle
    · rcases List.mem_append.mp hmem with h1 | h2
      · exact Or.inl h1
      · right
        simp only [List.mem_singleton] at h2
        subst h2
        have hb := foldl_step_pf step hstep b c
        simp only [List.flatten_cons, List.length_append]
        omega
    · right
      have hb := foldl_step_pf step hstep b c
      simp only [List.flatten_cons, List.length_append]
      omega

theorem stepNote_pf (env : Env) (c : CoreState) (n : NoteDetails) :
    (stepNote env c n).processed + (stepNote env c n).failed
      = c.processed + c.failed + 1 := by
  cases h : processNote env n <;> simp [stepNote, h] <;> omega

theorem syncStepNote_pf (env : SyncEnv) (hashes : List (String × String))
    (c : CoreState) (nid : String) :
    (syncStepNote env hashes c nid).processed
      + (syncStepNote env hashes c nid).failed
      = c.processed + c.failed + 1 := by
  by_cases h : (syncCandidate env hashes nid).fulfilled = true <;>
    simp [syncStepNote, h] <;> omega

/-- Claim C2: for both startFullIndexing and syncNotes, at every state
observable after a progress update the counters satisfy
processed + failed ≤ total, and at job completion
processed + failed = total. -/
theorem progress_counters_invariant (env : Env) (notes : List NoteDetails)
    (store : List Row) (now : ℕ) (senv : SyncEnv) (summaries : List Summary)
    (store2 : List Row) (now2 : ℕ) :
    (∀ s ∈ (startFullIndexing env notes store now).snapshots,
      s.1 + s.2 ≤ (startFullIndexing env notes store now).total) ∧
    ((startFullIndexing env notes store now).processed
      + (startFullIndexing env notes store now).failed
      = (startFullIndexing env notes store now).total) ∧
    (∀ s ∈ (syncNotes senv summaries store2 now2).snapshots,
      s.1 + s.2 ≤ (syncNotes senv summaries store2 now2).total) ∧
    ((syncNotes senv summaries store2 now2).processed
      + (syncNotes senv summaries store2 now2).failed
      = (syncNotes senv summaries store2 now2).total) := by
  refine ⟨?_, ?_, ?_, ?_⟩
  · intro s hs
    simp only [startFullIndexing] at hs ⊢
    rcases foldl_batches_snapshots (stepNote env) (stepNote_pf env)
      (toBatches notes) ⟨store, now, 0, 0⟩ [] s hs with h1 | h2
    · exact absurd h1 (List.not_mem_nil s)
    · rw [toBatches_flatten] at h2
      simpa using h2
  · simp only [startFullIndexing]
    rw [foldl_batches_fst, toBatches_flatten,
      foldl_step_pf (stepNote env) (stepNote_pf env) notes ⟨store, now, 0, 0⟩]
    simp
  · intro s hs
    simp only [syncNotes] at hs ⊢
    rcases foldl_batches_snapshots (syncStepNote senv (getAllNoteHashes store2))
      (syncStepNote_pf senv (getAllNoteHashes store2))
      (toBatches (syncUpdateSet summaries))
      ⟨deleteNotesByAppleIds store2 (syncDeleteSet summaries (getAllNoteHashes store2)),
        now2, (syncDeleteSet summaries (getAllNoteHashes store2)).length, 0⟩
      (if 0 < (syncDeleteSet summaries (getAllNoteHashes store2)).length then
        [((syncDeleteSet summaries (getAllNoteHashes store2)).length, 0)] else [])
      s hs with h1 | h2
    · split at h1
      · simp only [List.mem_singleton] at h1
        subst h1
        dsimp only
        omega
      · exact absurd h1 (List.not_mem_nil s)
    · rw [toBatches_flatten] at h2
      dsimp only at h2
      omega
  · simp only [syncNotes]
    rw [foldl_batches_fst, toBatches_flatten,
      foldl_step_pf (syncStepNote senv (getAllNoteHashes store2))
        (syncStepNote_pf senv (getAllNoteHashes store2)) (syncUpdateSet summaries)]
    simp only [syncUpdateSet, List.length_map]
    omega

/-- Witness for progress_counters_invariant at a concrete full-indexing
run and a concrete sync run (one deletion, one unchanged note, one
not-found note). -/
theorem progress_counters_invariant_witness :
    (1, 0) ∈ (syncNotes exSyncEnv exSummaries exStore 0).snapshots ∧
    (1 + 0 ≤ (syncNotes exSyncEnv exSummaries exStore 0).total) ∧
    ((startFullIndexing exEnv [exNote] [] 0).processed
      + (startFullIndexing exEnv [exNote] [] 0).failed
      = (startFullIndexing exEnv [exNote] [] 0).total) := by
  refine ⟨by decide, ?_, ?_⟩
  · exact (progress_counters_invariant exEnv [exNote] [] 0 exSyncEnv exSummaries
      exStore 0).2.2.1 (1, 0) (by decide)
  · exact (progress_counters_invariant exEnv [exNote] [] 0 exSyncEnv exSummaries
      exStore 0).2.1

/-- Witness for job_never_failed: a run whose first progress update
fails is left in status "running", and a fully reachable run completes. -/
theorem job_never_failed_witness :
    (fullIndexingWithFaults exEnv [exNote] (fun _ => false) =
      Except.error (createIndexingJob 1)) ∧
    (createIndexingJob 1).status = "running" := by
  constructor
  · rfl
  · exact (job_never_failed exEnv [exNote] (fun _ => false)).1
      (createIndexingJob 1) rfl

/-! ## Store frame lemmas -/

theorem processNote_id (env : Env) (n : NoteDetails) (inp : RowInput)
    (h : processNote env n = some inp) : inp.apple_note_id = n.id := by
  simp only [processNote] at h
  split at h
  · exact Option.noConfusion h
  · cases h
    rfl

theorem overwrite_preserves_id (inp : RowInput) (now : ℕ) (r : Row) :
    (if r.apple_note_id = inp.apple_note_id then applyRow inp now else r).apple_note_id
      = r.apple_note_id := by
  split
  case isTrue hh => exact hh.symm
  case isFalse => rfl

theorem rowsFor_upsert_ne (s : List Row) (inp : RowInput) (now : ℕ) (id : String)
    (h : inp.apple_note_id ≠ id) :
    rowsFor (upsertNote s inp now) id = rowsFor s id := by
  rw [upsertNote]
  split
  · rw [rowsFor, List.filter_map, rowsFor]
    have hfc : List.filter ((fun x : Row => decide (x.apple_note_id = id)) ∘
        (fun r : Row =>
          if r.apple_note_id = inp.apple_note_id then applyRow inp now else r)) s
        = List.filter (fun r : Row => decide (r.apple_note_id = id)) s := by
      apply List.filter_congr
      intro r _
      simp only [Function.comp_apply, overwrite_preserves_id]
    rw [hfc]
    refine (List.map_congr_left ?_).trans (List.map_id' _)
    intro r hr
    have hrid : r.apple_note_id = id := by
      simpa using List.of_mem_filter hr
    rw [if_neg (by rw [hrid]; exact fun he => h he.symm)]
  · rw [rowsFor, List.filter_append, rowsFor]
    have : List.filter (fun r => decide (r.apple_note_id = id)) [applyRow inp now]
        = [] := by
      simp [applyRow, h]
    rw [this, List.append_nil]

theorem rowsFor_upsert_nonempty (s : List Row) (inp : RowInput) (now : ℕ)
    (id : String) (h : rowsFor s id ≠ []) :
    rowsFor (upsertNote s inp now) id ≠ [] := by
  by_cases he : inp.apple_note_id = id
  · subst he
    rw [upsertNote]
    split
    next hany =>
      intro hnil
      rcases List.exists_mem_of_ne_nil _ h with ⟨r, hr⟩
      have hrs : r ∈ s := List.mem_of_mem_filter hr
      have hrid : r.apple_note_id = inp.apple_note_id := by
        have := List.of_mem_filter hr
        simpa using this
      have : (if r.apple_note_id = inp.apple_note_id then applyRow inp now else r)
          ∈ rowsFor (s.map (fun r =>
            if r.apple_note_id = inp.apple_note_id then applyRow inp now else r))
            inp.apple_note_id := by
        rw [rowsFor]
        apply List.mem_filter.mpr
        refine ⟨List.mem_map.mpr ⟨r, hrs, rfl⟩, ?_⟩
        simp [hrid, applyRow]
      rw [hnil] at this
      exact List.not_mem_nil _ this
    next hany =>
      intro hnil
      have : applyRow inp now ∈ rowsFor (s ++ [applyRow inp now]) inp.apple_note_id := by
        rw [rowsFor]
        apply List.mem_filter.mpr
        exact ⟨List.mem_append_right s (List.mem_singleton.mpr rfl), by simp [applyRow]⟩
      rw [hnil] at this
      exact List.not_mem_nil _ this
  · rw [rowsFor_upsert_ne s inp now id he]
    exact h

theorem stepNote_rowsFor_frame (env : Env) (c : CoreState) (n : NoteDetails)
    (id : String) (h : n.id ≠ id ∨ processNote env n = none) :
    rowsFor (stepNote env c n).store id = rowsFor c.store id := by
  rw [stepNote]
  cases hp : processNote env n with
  | none => rfl
  | some inp =>
    rcases h with hne | hnone
    · refine rowsFor_upsert_ne _ _ _ _ ?_
      rw [processNote_id env n inp hp]
      exact hne
    · rw [hnone] at hp
      exact Option.noConfusion hp

theorem foldl_stepNote_rowsFor_frame (env : Env) (id : String) :
    ∀ (l : List NoteDetails) (c : CoreState),
      (∀ n ∈ l, n.id ≠ id ∨ processNote env n = none) →
      rowsFor ((l.foldl (stepNote env) c).store) id = rowsFor c.store id := by
  intro l
  induction l with
  | nil =>
    intro c _
    rfl
  | cons n ns ih =>
    intro c hl
    rw [List.foldl_cons,
      ih (stepNote env c n) (fun m hm => hl m (List.mem_cons_of_mem n hm))]
    exact stepNote_rowsFor_frame env c n id (hl n (List.mem_cons_self n ns))

theorem stepNote_uniqueIds (env : Env) (c : CoreState) (n : NoteDetails)
    (h : UniqueIds c.store) : UniqueIds (stepNote env c n).store := by
  rw [stepNote]
  cases hp : processNote env n with
  | none => exact h
  | some inp => exact upsertNote_uniqueIds c.store inp c.now h

theorem foldl_stepNote_uniqueIds (env : Env) :
    ∀ (l : List NoteDetails) (c : CoreState), UniqueIds c.store →
      UniqueIds ((l.foldl (stepNote env) c).store) := by
  intro l
  induction l with
  | nil =>
    intro c h
    exact h
  | cons n ns ih =>
    intro c h
    rw [List.foldl_cons]
    exact ih (stepNote env c n) (stepNote_uniqueIds env c n h)

theorem foldl_stepNote_processed (env : Env) :
    ∀ (l : List NoteDetails) (c : CoreState),
      (l.foldl (stepNote env) c).processed
        = c.processed + l.countP (fun n => (processNote env n).isSome) := by
  intro l
  induction l with
  | nil =>
    intro c
    simp
  | cons n ns ih =>
    intro c
    rw [List.foldl_cons, ih (stepNote env c n), List.countP_cons]
    cases hp : processNote env n <;> simp [stepNote, hp] <;> omega

theorem foldl_stepNote_failed (env : Env) :
    ∀ (l : List NoteDetails) (c : CoreState),
      (l.foldl (stepNote env) c).failed
        = c.failed + l.countP (fun n => (processNote env n).isNone) := by
  intro l
  induction l with
  | nil =>
    intro c
    simp
  | cons n ns ih =>
    intro c
    rw [List.foldl_cons, ih (stepNote env c n), List.countP_cons]
    cases hp : processNote env n <;> simp [stepNote, hp] <;> omega

theorem foldl_stepNote_present (env : Env) :
    ∀ (l : List NoteDetails) (c : CoreState), UniqueIds c.store →
      (l.map NoteDetails.id).Nodup →
      ∀ n ∈ l, ∀ inp, processNote env n = some inp →
      ∃ t, rowsFor ((l.foldl (stepNote env) c).store) n.id = [applyRow inp t] := by
  intro l
  induction l with
  | nil =>
    intro c _ _ n hn
    exact absurd hn (List.not_mem_nil n)
  | cons m ms ih =>
    intro c hc hnodup n hn inp hinp
    rw [List.map_cons, List.nodup_cons] at hnodup
    rw [List.foldl_cons]
    rcases List.mem_cons.mp hn with rfl | hmem
    · refine ⟨c.now, ?_⟩
      have hframe : rowsFor ((ms.foldl (stepNote env) (stepNote env c n)).store) n.id
          = rowsFor ((stepNote env c n).store) n.id := by
        apply foldl_stepNote_rowsFor_frame
        intro x hx
        left
        intro he
        exact hnodup.1 (he ▸ List.mem_map.mpr ⟨x, hx, rfl⟩)
      rw [hframe, stepNote, hinp]
      have hkey := processNote_id env n inp hinp
      rw [← hkey]
      exact rowsFor_upsert_self c.store inp c.now hc
    · exact ih (stepNote env c m) (stepNote_uniqueIds env c m hc) hnodup.2 n hmem
        inp hinp

/-- Claim C5: per-note failure isolation in full indexing. When exactly
one note of the run fails during per-note processing (its embedding
call throws), every other note is still processed and its row upserted
into the store, the failing note is counted in failed with its prior
stored rows retained unchanged, the counters come out at
processed = all-but-one and failed = 1, and the job still ends with
status "completed". -/
theorem batch_failure_isolation (env : Env) (store : List Row) (now : ℕ)
    (pre post : List NoteDetails) (bad : NoteDetails)
    (hu : UniqueIds store)
    (hids : ((pre ++ bad :: post).map NoteDetails.id).Nodup)
    (hok : ∀ n ∈ pre ++ post, (processNote env n).isSome = true)
    (hbad : processNote env bad = none) :
    (startFullIndexing env (pre ++ bad :: post) store now).processed
      = pre.length + post.length ∧
    (startFullIndexing env (pre ++ bad :: post) store now).failed = 1 ∧
    (startFullIndexing env (pre ++ bad :: post) store now).status = "completed" ∧
    (∀ n ∈ pre ++ post, ∃ inp t, processNote env n = some inp ∧
      rowsFor (startFullIndexing env (pre ++ bad :: post) store now).finalStore n.id
        = [applyRow inp t]) ∧
    rowsFor (startFullIndexing env (pre ++ bad :: post) store now).finalStore bad.id
      = rowsFor store bad.id := by
  have hfst : ((toBatches (pre ++ bad :: post)).foldl
      (stepBatch (stepNote env)) (⟨store, now, 0, 0⟩, [])).1
      = (pre ++ bad :: post).foldl (stepNote env) ⟨store, now, 0, 0⟩ := by
    rw [foldl_batches_fst, toBatches_flatten]
  refine ⟨?_, ?_, ?_, ?_, ?_⟩
  · simp only [startFullIndexing, hfst]
    rw [foldl_stepNote_processed env (pre ++ bad :: post) ⟨store, now, 0, 0⟩]
    rw [List.countP_append, List.countP_cons]
    rw [List.countP_eq_length.mpr (fun n hn => hok n (List.mem_append_left post hn)),
      List.countP_eq_length.mpr (fun n hn => hok n (List.mem_append_right pre hn))]
    simp [hbad]
  · simp only [startFullIndexing, hfst]
    rw [foldl_stepNote_failed env (pre ++ bad :: post) ⟨store, now, 0, 0⟩]
    rw [List.countP_append, List.countP_cons]
    have hp : pre.countP (fun n => (processNote env n).isNone) = 0 := by
      rw [List.countP_eq_zero]
      intro n hn
      have := hok n (List.mem_append_left post hn)
      cases hcase : processNote env n
      · rw [hcase] at this
        exact absurd this (by simp)
      · simp [hcase]
    have hq : post.countP (fun n => (processNote env n).isNone) = 0 := by
      rw [List.countP_eq_zero]
      intro n hn
      have := hok n (List.mem_append_right pre hn)
      cases hcase : processNote env n
      · rw [hcase] at this
        exact absurd this (by simp)
      · simp [hcase]
    rw [hp, hq]
    simp [hbad]
  · simp only [startFullIndexing]
    split <;> rfl
  · intro n hn
    have hmem : n ∈ pre ++ bad :: post := by
      rcases List.mem_append.mp hn with h1 | h2
      · exact List.mem_append_left _ h1
      · exact List.mem_append_right _ (List.mem_cons_of_mem bad h2)
    have hsome : (processNote env n).isSome = true := hok n hn
    rcases Option.isSome_iff_exists.mp hsome with ⟨inp, hinp⟩
    rcases foldl_stepNote_present env (pre ++ bad :: post) ⟨store, now, 0, 0⟩ hu hids
      n hmem inp hinp with ⟨t, ht⟩
    refine ⟨inp, t, hinp, ?_⟩
    simp only [startFullIndexing, hfst]
    exact ht
  · simp only [startFullIndexing, hfst]
    apply foldl_stepNote_rowsFor_frame
    intro n hn
    rcases List.mem_append.mp hn with h1 | h2
    · left
      intro he
      rw [List.map_append, List.map_cons, List.nodup_append] at hids
      exact hids.2.2 (List.mem_map.mpr ⟨n, h1, rfl⟩) (he ▸ List.mem_cons_self _ _)
    · rcases List.mem_cons.mp h2 with rfl | h3
      · right
        exact hbad
      · left
        intro he
        rw [List.map_append, List.map_cons] at hids
        have := List.Nodup.of_append_right hids
        rw [List.nodup_cons] at this
        exact this.1 (he ▸ List.mem_map.mpr ⟨n, h3, rfl⟩)

/-- Witness for batch_failure_isolation: three notes of which the
middle one fails to embed; the run counts processed = 2, failed = 1
and still reports status "completed". -/
theorem batch_failure_isolation_witness :
    (startFullIndexing exEnvBad [exNoteA, exNoteBad, exNoteC] [] 0).processed
      = [exNoteA].length + [exNoteC].length ∧
    (startFullIndexing exEnvBad [exNoteA, exNoteBad, exNoteC] [] 0).failed = 1 ∧
    (startFullIndexing exEnvBad [exNoteA, exNoteBad, exNoteC] [] 0).status
      = "completed" := by
  have h := batch_failure_isolation exEnvBad [] 0 [exNoteA] [exNoteC] exNoteBad
    (by decide) (by decide) (by decide) (by decide)
  exact ⟨h.1, h.2.1, h.2.2.1⟩

/-! ## Sync candidate lemmas (claims C3, C4, C10) -/

theorem syncCandidate_skip (env : SyncEnv) (hashes : List (String × String))
    (id : String) (d : NoteDetails) (hf : env.fetch id = .found d)
    (hh : hashes.lookup id = some (env.contentHash d.content)) :
    syncCandidate env hashes id = ⟨true, 0, none⟩ := by
  simp only [syncCandidate, hf]
  rw [if_neg (fun hne => hne hh)]

theorem syncCandidate_notFound (env : SyncEnv) (hashes : List (String × String))
    (id : String) (hf : env.fetch id = .notFound) :
    syncCandidate env hashes id = ⟨true, 0, none⟩ := by
  simp only [syncCandidate, hf]

theorem syncCandidate_upserted_id (env : SyncEnv) (hashes : List (String × String))
    (nid : String) (inp : RowInput)
    (henv : ∀ x d2, env.fetch x = .found d2 → d2.id = x)
    (h : (syncCandidate env hashes nid).upserted = some inp) :
    inp.apple_note_id = nid := by
  simp only [syncCandidate] at h
  cases hf : env.fetch nid with
  | fetchError =>
    rw [hf] at h
    exact Option.noConfusion h
  | notFound =>
    rw [hf] at h
    exact Option.noConfusion h
  | found d =>
    rw [hf] at h
    dsimp only at h
    split at h
    · cases hp : processNote env.toEnv d with
      | some inp2 =>
        rw [hp] at h
        have h2 : some inp2 = some inp := h
        have h3 : inp = inp2 := (Option.some.inj h2).symm
        subst h3
        rw [processNote_id env.toEnv d inp hp]
        exact henv nid d hf
      | none =>
        rw [hp] at h
        exact Option.noConfusion (show (none : Option RowInput) = some inp from h)
    · exact Option.noConfusion (show (none : Option RowInput) = some inp from h)

theorem syncStepNote_store (env : SyncEnv) (hashes : List (String × String))
    (c : CoreState) (nid : String) :
    (syncStepNote env hashes c nid).store
      = match (syncCandidate env hashes nid).upserted with
        | some inp => upsertNote c.store inp c.now
        | none => c.store := by
  simp only [syncStepNote]
  split <;> rfl

theorem syncStepNote_rowsFor_frame (env : SyncEnv) (hashes : List (String × String))
    (c : CoreState) (nid : String) (id : String)
    (h : ∀ inp, (syncCandidate env hashes nid).upserted = some inp →
      inp.apple_note_id ≠ id) :
    rowsFor (syncStepNote env hashes c nid).store id = rowsFor c.store id := by
  rw [syncStepNote_store]
  cases hu : (syncCandidate env hashes nid).upserted with
  | none => rfl
  | some inp => exact rowsFor_upsert_ne c.store inp c.now id (h inp hu)

theorem foldl_syncStep_rowsFor_frame (env : SyncEnv) (hashes : List (String × String))
    (id : String) :
    ∀ (l : List String) (c : CoreState),
      (∀ nid ∈ l, ∀ inp, (syncCandidate env hashes nid).upserted = some inp →
        inp.apple_note_id ≠ id) →
      rowsFor ((l.foldl (syncStepNote env hashes) c).store) id
        = rowsFor c.store id := by
  intro l
  induction l with
  | nil =>
    intro c _
    rfl
  | cons nid ns ih =>
    intro c hl
    rw [List.foldl_cons,
      ih (syncStepNote env hashes c nid) (fun m hm => hl m (List.mem_cons_of_mem nid hm))]
    exact syncStepNote_rowsFor_frame env hashes c nid id
      (hl nid (List.mem_cons_self nid ns))

theorem syncStepNote_rowsFor_nonempty (env : SyncEnv) (hashes : List (String × String))
    (c : CoreState) (nid : String) (id : String)
    (h : rowsFor c.store id ≠ []) :
    rowsFor (syncStepNote env hashes c nid).store id ≠ [] := by
  rw [syncStepNote_store]
  cases hu : (syncCandidate env hashes nid).upserted with
  | none => exact h
  | some inp => exact rowsFor_upsert_nonempty c.store inp c.now id h

theorem foldl_syncStep_rowsFor_nonempty (env : SyncEnv)
    (hashes : List (String × String)) (id : String) :
    ∀ (l : List String) (c : CoreState), rowsFor c.store id ≠ [] →
      rowsFor ((l.foldl (syncStepNote env hashes) c).store) id ≠ [] := by
  intro l
  induction l with
  | nil =>
    intro c h
    exact h
  | cons nid ns ih =>
    intro c h
    rw [List.foldl_cons]
    exact ih (syncStepNote env hashes c nid)
      (syncStepNote_rowsFor_nonempty env hashes c nid id h)

theorem syncStepNote_processed (env : SyncEnv) (hashes : List (String × String))
    (c : CoreState) (nid : String) :
    (syncStepNote env hashes c nid).processed
      = c.processed
        + (if (syncCandidate env hashes nid).fulfilled then 1 else 0) := by
  simp only [syncStepNote]
  by_cases h : (syncCandidate env hashes nid).fulfilled = true <;> simp [h]

theorem foldl_syncStep_processed (env : SyncEnv) (hashes : List (String × String)) :
    ∀ (l : List String) (c : CoreState),
      (l.foldl (syncStepNote env hashes) c).processed
        = c.processed
          + l.countP (fun nid => (syncCandidate env hashes nid).fulfilled) := by
  intro l
  induction l with
  | nil =>
    intro c
    simp
  | cons nid ns ih =>
    intro c
    rw [List.foldl_cons, ih (syncStepNote env hashes c nid), List.countP_cons,
      syncStepNote_processed]
    by_cases h : (syncCandidate env hashes nid).fulfilled = true <;> simp [h] <;> omega

theorem rowsFor_delete_not_mem (s : List Row) (ids : List String) (id : String)
    (h : id ∉ ids) :
    rowsFor (deleteNotesByAppleIds s ids) id = rowsFor s id := by
  rw [deleteNotesByAppleIds, rowsFor, rowsFor, List.filter_filter]
  apply List.filter_congr
  intro r _
  by_cases hr : r.apple_note_id = id
  · rw [hr]
    simp [h]
  · simp [hr]

theorem rowsFor_delete_mem (s : List Row) (ids : List String) (id : String)
    (h : id ∈ ids) :
    rowsFor (deleteNotesByAppleIds s ids) id = [] := by
  rw [deleteNotesByAppleIds, rowsFor, List.filter_eq_nil_iff]
  intro r hr
  have hq := List.of_mem_filter hr
  simp only [decide_eq_true_eq] at hq ⊢
  intro he
  rw [he] at hq
  exact hq h

theorem mem_syncDeleteSet_iff (summaries : List Summary)
    (hashes : List (String × String)) (id : String) :
    id ∈ syncDeleteSet summaries hashes ↔
      id ∈ hashes.map Prod.fst ∧ id ∉ summaries.map Summary.id := by
  rw [syncDeleteSet]
  simp [List.mem_filter]

/-- Claim C3: the hash short-circuit of syncNotes. For an update
candidate whose fetched body hashes to exactly the stored hash, the
candidate settles as fulfilled with zero embedding calls and no
upsert, the rows stored for that note are left fully unchanged by the
whole sync run, and the note is still counted in processed (processed
is the deletion count plus the number of fulfilled candidates, and
this candidate is fulfilled). -/
theorem sync_hash_short_circuit (env : SyncEnv) (summaries : List Summary)
    (store : List Row) (now : ℕ) (id : String) (d : NoteDetails)
    (henv : ∀ x d2, env.fetch x = .found d2 → d2.id = x)
    (hmem : id ∈ summaries.map Summary.id)
    (hf : env.fetch id = .found d)
    (hh : (getAllNoteHashes store).lookup id = some (env.contentHash d.content)) :
    syncCandidate env (getAllNoteHashes store) id = ⟨true, 0, none⟩ ∧
    rowsFor (syncNotes env summaries store now).finalStore id = rowsFor store id ∧
    (syncNotes env summaries store now).processed
      = (syncDeleteSet summaries (getAllNoteHashes store)).length
        + (summaries.map Summary.id).countP
            (fun nid => (syncCandidate env (getAllNoteHashes store) nid).fulfilled) ∧
    (syncCandidate env (getAllNoteHashes store) id).fulfilled = true := by
  have hskip := syncCandidate_skip env (getAllNoteHashes store) id d hf hh
  refine ⟨hskip, ?_, ?_, by rw [hskip]⟩
  · simp only [syncNotes]
    rw [foldl_batches_fst, toBatches_flatten]
    have hframe : ∀ nid ∈ syncUpdateSet summaries, ∀ inp,
        (syncCandidate env (getAllNoteHashes store) nid).upserted = some inp →
        inp.apple_note_id ≠ id := by
      intro nid _ inp hup
      by_cases hnid : nid = id
      · subst hnid
        rw [hskip] at hup
        exact absurd hup (by simp)
      · rw [syncCandidate_upserted_id env (getAllNoteHashes store) nid inp henv hup]
        exact hnid
    rw [foldl_syncStep_rowsFor_frame env (getAllNoteHashes store) id
      (syncUpdateSet summaries) _ hframe]
    exact rowsFor_delete_not_mem store _ id
      (fun hdel => ((mem_syncDeleteSet_iff summaries _ id).mp hdel).2 hmem)
  · simp only [syncNotes]
    rw [foldl_batches_fst, toBatches_flatten,
      foldl_syncStep_processed env (getAllNoteHashes store) (syncUpdateSet summaries)]
    rfl

/-- Witness for sync_hash_short_circuit: the fetch function of
exSyncEnv only returns found-details whose id matches the requested
id. -/
theorem exSyncEnv_consistent :
    ∀ x d2, exSyncEnv.fetch x = .found d2 → d2.id = x := by
  intro x d2 h
  simp only [exSyncEnv] at h
  by_cases h1 : x = "n1"
  · subst h1
    rw [if_pos rfl] at h
    cases h
    rfl
  · rw [if_neg h1] at h
    by_cases h2 : x = "n2"
    · subst h2
      rw [if_pos rfl] at h
      exact FetchResult.noConfusion h
    · rw [if_neg h2] at h
      exact FetchResult.noConfusion h

/-- Witness for sync_hash_short_circuit at the concrete run: the note
n1 is unchanged, no embedding call and no upsert happen for it, its
stored row survives the run unchanged, and it is fulfilled. -/
theorem sync_hash_short_circuit_witness :
    syncCandidate exSyncEnv (getAllNoteHashes exStore) "n1" = ⟨true, 0, none⟩ ∧
    rowsFor (syncNotes exSyncEnv exSummaries exStore 0).finalStore "n1"
      = rowsFor exStore "n1" := by
  have h := sync_hash_short_circuit exSyncEnv exSummaries exStore 0 "n1"
    ⟨"n1", "T1", "body1", "Notes", "d1", "d2"⟩ exSyncEnv_consistent (by decide)
    (by decide) (by decide)
  exact ⟨h.1, h.2.1⟩

/-- Claim C10: an update candidate whose body fetch resolves null
(not-found) settles as fulfilled with zero embedding calls and no
upsert, its stored rows are left unchanged by the whole sync run, and
it is still counted in processed, not in failed. -/
theorem sync_notfound_counted_processed (env : SyncEnv) (summaries : List Summary)
    (store : List Row) (now : ℕ) (id : String)
    (henv : ∀ x d2, env.fetch x = .found d2 → d2.id = x)
    (hmem : id ∈ summaries.map Summary.id)
    (hf : env.fetch id = .notFound) :
    syncCandidate env (getAllNoteHashes store) id = ⟨true, 0, none⟩ ∧
    rowsFor (syncNotes env summaries store now).finalStore id = rowsFor store id ∧
    (syncNotes env summaries store now).processed
      = (syncDeleteSet summaries (getAllNoteHashes store)).length
        + (summaries.map Summary.id).countP
            (fun nid => (syncCandidate env (getAllNoteHashes store) nid).fulfilled) ∧
    (syncCandidate env (getAllNoteHashes store) id).fulfilled = true := by
  have hskip := syncCandidate_notFound env (getAllNoteHashes store) id hf
  refine ⟨hskip, ?_, ?_, by rw [hskip]⟩
  · simp only [syncNotes]
    rw [foldl_batches_fst, toBatches_flatten]
    have hframe : ∀ nid ∈ syncUpdateSet summaries, ∀ inp,
        (syncCandidate env (getAllNoteHashes store) nid).upserted = some inp →
        inp.apple_note_id ≠ id := by
      intro nid _ inp hup
      by_cases hnid : nid = id
      · subst hnid
        rw [hskip] at hup
        exact absurd hup (by simp)
      · rw [syncCandidate_upserted_id env (getAllNoteHashes store) nid inp henv hup]
        exact hnid
    rw [foldl_syncStep_rowsFor_frame env (getAllNoteHashes store) id
      (syncUpdateSet summaries) _ hframe]
    exact rowsFor_delete_not_mem store _ id
      (fun hdel => ((mem_syncDeleteSet_iff summaries _ id).mp hdel).2 hmem)
  · simp only [syncNotes]
    rw [foldl_batches_fst, toBatches_flatten,
      foldl_syncStep_processed env (getAllNoteHashes store) (syncUpdateSet summaries)]
    rfl

/-- Witness for sync_notfound_counted_processed at the concrete run:
the note n2 resolves null; it is fulfilled with no embedding call. -/
theorem sync_notfound_counted_processed_witness :
    syncCandidate exSyncEnv (getAllNoteHashes exStore) "n2" = ⟨true, 0, none⟩ ∧
    rowsFor (syncNotes exSyncEnv exSummaries exStore 0).finalStore "n2"
      = rowsFor exStore "n2" := by
  have h := sync_notfound_counted_processed exSyncEnv exSummaries exStore 0 "n2"
    exSyncEnv_consistent (by decide) (by decide)
  exact ⟨h.1, h.2.1⟩

/-- Claim C4: deletion correctness of syncNotes. A note id present in
the stored hash map but absent from the current summaries lands in the
deletion set, has no rows left in the store after the run, and is
counted through processed (the deletion count is added to processed up
front); conversely every id present in the summaries is never in the
deletion set, and a note of the store whose id the summaries still
carry keeps at least one row through the whole run. -/
theorem sync_deletion_correct (env : SyncEnv) (summaries : List Summary)
    (store : List Row) (now : ℕ) (id : String)
    (henv : ∀ x d2, env.fetch x = .found d2 → d2.id = x)
    (hmem : id ∈ (getAllNoteHashes store).map Prod.fst)
    (habsent : id ∉ summaries.map Summary.id) :
    id ∈ syncDeleteSet summaries (getAllNoteHashes store) ∧
    rowsFor (syncNotes env summaries store now).finalStore id = [] ∧
    (syncNotes env summaries store now).processed
      = (syncDeleteSet summaries (getAllNoteHashes store)).length
        + (summaries.map Summary.id).countP
            (fun nid => (syncCandidate env (getAllNoteHashes store) nid).fulfilled) ∧
    (∀ id2 ∈ summaries.map Summary.id,
      id2 ∉ syncDeleteSet summaries (getAllNoteHashes store) ∧
      (rowsFor store id2 ≠ [] →
        rowsFor (syncNotes env summaries store now).finalStore id2 ≠ [])) := by
  have hdel : id ∈ syncDeleteSet summaries (getAllNoteHashes store) :=
    (mem_syncDeleteSet_iff summaries _ id).mpr ⟨hmem, habsent⟩
  refine ⟨hdel, ?_, ?_, ?_⟩
  · simp only [syncNotes]
    rw [foldl_batches_fst, toBatches_flatten]
    have hframe : ∀ nid ∈ syncUpdateSet summaries, ∀ inp,
        (syncCandidate env (getAllNoteHashes store) nid).upserted = some inp →
        inp.apple_note_id ≠ id := by
      intro nid hnid inp hup
      rw [syncCandidate_upserted_id env (getAllNoteHashes store) nid inp henv hup]
      intro he
      rw [syncUpdateSet] at hnid
      exact habsent (he ▸ hnid)
    rw [foldl_syncStep_rowsFor_frame env (getAllNoteHashes store) id
      (syncUpdateSet summaries) _ hframe]
    exact rowsFor_delete_mem store _ id hdel
  · simp only [syncNotes]
    rw [foldl_batches_fst, toBatches_flatten,
      foldl_syncStep_processed env (getAllNoteHashes store) (syncUpdateSet summaries)]
    rfl
  · intro id2 hid2
    have hnd : id2 ∉ syncDeleteSet summaries (getAllNoteHashes store) :=
      fun hdel2 => ((mem_syncDeleteSet_iff summaries _ id2).mp hdel2).2 hid2
    refine ⟨hnd, ?_⟩
    intro hne
    simp only [syncNotes]
    rw [foldl_batches_fst, toBatches_flatten]
    apply foldl_syncStep_rowsFor_nonempty
    rw [rowsFor_delete_not_mem store _ id2 hnd]
    exact hne

/-- Witness for sync_deletion_correct at the concrete run: the stored
note gone is absent from the summaries, is deleted, and the summary
ids n1 and n2 survive. -/
theorem sync_deletion_correct_witness :
    "gone" ∈ syncDeleteSet exSummaries (getAllNoteHashes exStore) ∧
    rowsFor (syncNotes exSyncEnv exSummaries exStore 0).finalStore "gone" = [] := by
  have h := sync_deletion_correct exSyncEnv exSummaries exStore 0 "gone"
    exSyncEnv_consistent (by decide) (by decide)
  exact ⟨h.1, h.2.1⟩

/-! ## Fusion score lemmas (claim C1) -/

theorem bump_lookup_ne (key key2 : String) (rrf : ℚ) (t c : String)
    (h : key2 ≠ key) :
    ∀ (m : List (String × ScoreEntry)),
      (bump m key rrf t c).lookup key2 = m.lookup key2 := by
  intro m
  induction m with
  | nil =>
    have h3 : (key2 == key) = false := beq_eq_false_iff_ne.mpr h
    simp [bump, List.lookup, h3]
  | cons p rest ih =>
    obtain ⟨k, e⟩ := p
    simp only [bump]
    by_cases hk : k = key
    · rw [if_pos hk]
      have h2 : (key2 == k) = false := by
        simp only [beq_eq_false_iff_ne, ne_eq]
        intro he
        exact h (he.trans hk)
      simp [List.lookup, h2]
    · rw [if_neg hk]
      by_cases h2 : key2 = k
      · subst h2
        simp [List.lookup]
      · have h3 : (key2 == k) = false := by
          simp only [beq_eq_false_iff_ne, ne_eq]
          exact h2
        simp [List.lookup, h3, ih]

theorem bump_lookup_self_none (key : String) (rrf : ℚ) (t c : String) :
    ∀ (m : List (String × ScoreEntry)), m.lookup key = none →
      (bump m key rrf t c).lookup key = some ⟨rrf, t, c⟩ := by
  intro m
  induction m with
  | nil =>
    intro _
    simp [bump, List.lookup]
  | cons p rest ih =>
    obtain ⟨k, e⟩ := p
    intro hm
    simp only [bump]
    by_cases hk : k = key
    · subst hk
      simp [List.lookup] at hm
    · rw [if_neg hk]
      have h3 : (key == k) = false := by
        simp only [beq_eq_false_iff_ne, ne_eq]
        exact fun he => hk he.symm
      simp only [List.lookup, h3] at hm
      simp [List.lookup, h3]
      exact ih hm

theorem bump_lookup_self_some (key : String) (rrf : ℚ) (t c : String) :
    ∀ (m : List (String × ScoreEntry)) (e0 : ScoreEntry), m.lookup key = some e0 →
      (bump m key rrf t c).lookup key
        = some ⟨e0.score + rrf, e0.title, e0.content⟩ := by
  intro m
  induction m with
  | nil =>
    intro e0 hm
    exact Option.noConfusion hm
  | cons p rest ih =>
    obtain ⟨k, e⟩ := p
    intro e0 hm
    simp only [bump]
    by_cases hk : k = key
    · subst hk
      simp only [List.lookup_cons_self] at hm
      cases hm
      rw [if_pos rfl]
      simp [List.lookup]
    · rw [if_neg hk]
      have h3 : (key == k) = false := by
        simp only [beq_eq_false_iff_ne, ne_eq]
        exact fun he => hk he.symm
      simp only [List.lookup, h3] at hm
      simp [List.lookup, h3]
      exact ih e0 hm

theorem processRows_lookup_not_mem (key : String) :
    ∀ (rs : List SearchRow) (m : List (String × ScoreEntry)) (i : ℕ),
      key ∉ rs.map rowKey →
      (processRows m i rs).lookup key = m.lookup key := by
  intro rs
  induction rs with
  | nil =>
    intro m i _
    rfl
  | cons r rs ih =>
    intro m i hk
    have h1 : key ≠ rowKey r := by
      intro he
      exact hk (List.map_cons rowKey r rs ▸ (he ▸ List.mem_cons_self _ _))
    have h2 : key ∉ rs.map rowKey := by
      intro hmm
      exact hk (List.map_cons rowKey r rs ▸ List.mem_cons_of_mem _ hmm)
    simp only [processRows]
    rw [ih _ _ h2, bump_lookup_ne (rowKey r) key _ _ _ h1]

theorem processRows_lookup_mem (key : String) :
    ∀ (rs : List SearchRow) (m : List (String × ScoreEntry)) (i : ℕ),
      (rs.map rowKey).Nodup → key ∈ rs.map rowKey →
      ∃ e, (processRows m i rs).lookup key = some e ∧
        e.score = ((m.lookup key).elim 0 ScoreEntry.score)
          + 1 / (rrfK + (((i + (rs.map rowKey).indexOf key : ℕ)) : ℚ)) := by
  intro rs
  induction rs with
  | nil =>
    intro m i _ hk
    exact absurd hk (List.not_mem_nil key)
  | cons r rs ih =>
    intro m i hnd hk
    rw [List.map_cons, List.nodup_cons] at hnd
    simp only [processRows]
    by_cases h1 : key = rowKey r
    · have hks : key ∉ rs.map rowKey := by
        rw [h1]
        exact hnd.1
      rw [processRows_lookup_not_mem key rs _ _ hks]
      rw [h1, List.map_cons, List.indexOf_cons_self]
      cases he : m.lookup (rowKey r) with
      | none =>
        refine ⟨⟨1 / (rrfK + (i : ℚ)), r.title, r.content⟩,
          bump_lookup_self_none (rowKey r) _ r.title r.content m he, ?_⟩
        simp [he]
      | some e0 =>
        refine ⟨⟨e0.score + 1 / (rrfK + (i : ℚ)), e0.title, e0.content⟩,
          bump_lookup_self_some (rowKey r) _ r.title r.content m e0 he, ?_⟩
        simp [he]
    · have hks : key ∈ rs.map rowKey := by
        rcases List.mem_cons.mp (List.map_cons rowKey r rs ▸ hk) with hc | hc
        · exact absurd hc h1
        · exact hc
      rcases ih (bump m (rowKey r) (1 / (rrfK + (i : ℚ))) r.title r.content) (i + 1)
        hnd.2 hks with ⟨e, he1, he2⟩
      refine ⟨e, he1, ?_⟩
      rw [bump_lookup_ne (rowKey r) key _ _ _ h1] at he2
      rw [he2, List.map_cons, List.indexOf_cons_ne _ (fun he => h1 he.symm)]
      congr 2
      push_cast
      ring

/-- Claim C1: for every pair of input result lists with distinct keys
within each list, the fusion score hybridSearch assigns to an item is
the sum, over the lists in which the item appears, of 1/(60 + rank),
where rank is the item's 0-based position in that list: one term when
the key occurs in only one list, the sum of both terms when it occurs
in both. -/
theorem rrf_fusion_score (v t : List SearchRow)
    (hv : (keysOf v).Nodup) (ht : (keysOf t).Nodup) (key : String)
    (hmem : key ∈ keysOf v ∨ key ∈ keysOf t) :
    ∃ e, (fusionEntries v t).lookup key = some e ∧
      e.score =
        (if key ∈ keysOf v then 1 / (rrfK + ((keysOf v).indexOf key : ℚ)) else 0)
        + (if key ∈ keysOf t then 1 / (rrfK + ((keysOf t).indexOf key : ℚ)) else 0) := by
  simp only [keysOf] at hv ht hmem ⊢
  rw [fusionEntries]
  by_cases hkt : key ∈ t.map rowKey
  · rcases processRows_lookup_mem key t (processRows [] 0 v) 0 ht hkt with ⟨e, he1, he2⟩
    refine ⟨e, he1, ?_⟩
    by_cases hkv : key ∈ v.map rowKey
    · rcases processRows_lookup_mem key v [] 0 hv hkv with ⟨e1, hv1, hv2⟩
      rw [hv1] at he2
      simp only [Option.elim] at he2
      rw [he2, hv2]
      simp only [List.lookup, Option.elim]
      rw [if_pos hkv, if_pos hkt]
      push_cast
      ring
    · rw [processRows_lookup_not_mem key v [] 0 hkv] at he2
      simp only [List.lookup, Option.elim] at he2
      rw [he2]
      rw [if_neg hkv, if_pos hkt]
      push_cast
      ring
  · have hkv : key ∈ v.map rowKey := hmem.resolve_right hkt
    rw [processRows_lookup_not_mem key t _ 0 hkt]
    rcases processRows_lookup_mem key v [] 0 hv hkv with ⟨e1, hv1, hv2⟩
    refine ⟨e1, hv1, ?_⟩
    simp only [List.lookup, Option.elim] at hv2
    rw [hv2, if_pos hkv, if_neg hkt]
    push_cast
    ring

/-- Witness for rrf_fusion_score: the row B sits at vector rank 1 and
lexical rank 0, so its fused score is 1/61 + 1/60. -/
theorem rrf_fusion_score_witness :
    ∃ e, (fusionEntries [exA, exB] [exB, exD]).lookup (rowKey exB) = some e ∧
      e.score =
        (if rowKey exB ∈ keysOf [exA, exB]
          then 1 / (rrfK + ((keysOf [exA, exB]).indexOf (rowKey exB) : ℚ)) else 0)
        + (if rowKey exB ∈ keysOf [exB, exD]
          then 1 / (rrfK + ((keysOf [exB, exD]).indexOf (rowKey exB) : ℚ)) else 0) :=
  rrf_fusion_score [exA, exB] [exB, exD] (by decide) (by decide) (rowKey exB)
    (Or.inl (by decide))

/-! ## Fusion order lemmas (claim C7) -/

theorem bump_keys (key : String) (rrf : ℚ) (t c : String) :
    ∀ (m : List (String × ScoreEntry)),
      (bump m key rrf t c).map Prod.fst =
        if key ∈ m.map Prod.fst then m.map Prod.fst
        else m.map Prod.fst ++ [key] := by
  intro m
  induction m with
  | nil =>
    simp [bump]
  | cons p rest ih =>
    obtain ⟨k, e⟩ := p
    simp only [bump]
    by_cases hk : k = key
    · rw [if_pos hk, List.map_cons, List.map_cons,
        if_pos (hk ▸ List.mem_cons_self k (rest.map Prod.fst))]
    · rw [if_neg hk, List.map_cons, List.map_cons, ih]
      by_cases hmem : key ∈ rest.map Prod.fst
      · rw [if_pos hmem, if_pos (List.mem_cons_of_mem _ hmem)]
      · rw [if_neg hmem, if_neg ?_, List.cons_append]
        intro hc
        rcases List.mem_cons.mp hc with h1 | h2
        · exact hk h1.symm
        · exact hmem h2

theorem processRows_keys :
    ∀ (rs : List SearchRow) (m : List (String × ScoreEntry)) (i : ℕ),
      (rs.map rowKey).Nodup →
      (processRows m i rs).map Prod.fst
        = m.map Prod.fst
          ++ (rs.map rowKey).filter (fun k => decide (k ∉ m.map Prod.fst)) := by
  intro rs
  induction rs with
  | nil =>
    intro m i _
    simp [processRows]
  | cons r rs ih =>
    intro m i hnd
    rw [List.map_cons, List.nodup_cons] at hnd
    simp only [processRows]
    rw [ih _ _ hnd.2, bump_keys, List.map_cons, List.filter_cons]
    by_cases hmem : rowKey r ∈ m.map Prod.fst
    · rw [if_pos hmem]
      have hc : (decide (rowKey r ∉ m.map Prod.fst)) = false := by
        simp [hmem]
      rw [hc]
      simp
    · rw [if_neg hmem]
      have hc : (decide (rowKey r ∉ m.map Prod.fst)) = true := by
        simp [hmem]
      rw [hc]
      have hfeq : (rs.map rowKey).filter
            (fun k => decide (k ∉ m.map Prod.fst ++ [rowKey r]))
          = (rs.map rowKey).filter (fun k => decide (k ∉ m.map Prod.fst)) := by
        apply List.filter_congr
        intro k hk
        have hne : k ≠ rowKey r := by
          intro he
          exact hnd.1 (he ▸ hk)
        simp [List.mem_append, hne]
      rw [hfeq]
      simp

theorem processRows_keys_nil (rs : List SearchRow) (i : ℕ)
    (hnd : (rs.map rowKey).Nodup) :
    (processRows [] i rs).map Prod.fst = rs.map rowKey := by
  rw [processRows_keys rs [] i hnd]
  simp only [List.map_nil, List.nil_append]
  apply List.filter_eq_self.mpr
  intro a _
  simp

theorem sortedEntries_sorted (v t : List SearchRow) :
    (sortedEntries v t).Pairwise scoreDescRel :=
  List.sorted_insertionSort scoreDescRel ((fusionEntries v t).map Prod.snd)

theorem sortedEntries_perm (v t : List SearchRow) :
    (sortedEntries v t).Perm ((fusionEntries v t).map Prod.snd) :=
  List.perm_insertionSort scoreDescRel ((fusionEntries v t).map Prod.snd)

theorem sortedEntries_stable (v t : List SearchRow) (a b : ScoreEntry)
    (hs : a.score = b.score)
    (hsub : List.Sublist [a, b] ((fusionEntries v t).map Prod.snd)) :
    List.Sublist [a, b] (sortedEntries v t) :=
  List.pair_sublist_insertionSort (show scoreDescRel a b from hs.ge) hsub

/-- Counterexample to claim C7: at the vector list exVecList (fillers
v0..v59 then x at vector rank 60) and lexical list exTextList (y at
lexical rank 0, fillers, x at lexical rank 60), the items x (score
1/120 + 1/120 = 1/60) and y (score 1/60) tie, x appears in the vector
list with vector rank 60 while y has lexical rank 0, yet x precedes y
in the output: the output is not ordered by the rank key the claim
describes (vector rank when in the vector list, else lexical rank). -/
theorem rrf_tiebreak_counterexample :
    ¬ claimTieBreakHolds exVecList exTextList 121 := by decide

/-- Claim C7 (amended): hybridSearch output order is a pure
deterministic function of the two input orderings: the fused items are
sorted by fusion score descending, and ties in fusion score keep the
insertion order of the scores Map — all items appearing in the vector
list first, in vector-rank order, followed by the items appearing only
in the lexical list, in lexical-rank order (rather than comparing each
item's own vector-else-lexical rank number across lists, which fails
when an item of both lists ties with a lexical-only item). In
particular vector [A, B, C] with lexical [B, A, D] yields
A, B, C, D. -/
theorem rrf_order_deterministic_stable :
    (∀ v t : List SearchRow, (keysOf v).Nodup → (keysOf t).Nodup →
      (fusionEntries v t).map Prod.fst
        = keysOf v ++ (keysOf t).filter (fun k => decide (k ∉ keysOf v))) ∧
    (∀ v t : List SearchRow, (sortedEntries v t).Pairwise scoreDescRel) ∧
    (∀ (v t : List SearchRow) (a b : ScoreEntry), a.score = b.score →
      List.Sublist [a, b] ((fusionEntries v t).map Prod.snd) →
      List.Sublist [a, b] (sortedEntries v t)) ∧
    (∀ v t : List SearchRow, (sortedEntries v t).Perm ((fusionEntries v t).map Prod.snd)) ∧
    hybridSearch [exA, exB, exC] [exB, exA, exD] 20
      = [⟨1 / 60 + 1 / 61, "A", ""⟩, ⟨1 / 61 + 1 / 60, "B", ""⟩,
        ⟨1 / 62, "C", ""⟩, ⟨1 / 62, "D", ""⟩] := by
  refine ⟨?_, sortedEntries_sorted, sortedEntries_stable, sortedEntries_perm, by decide⟩
  intro v t hv ht
  simp only [keysOf] at hv ht ⊢
  rw [fusionEntries, processRows_keys t _ 0 ht, processRows_keys_nil v 0 hv]

/-- Witness for rrf_order_deterministic_stable at the worked example:
the keys characterization at [A, B, C] and [B, A, D], and the tied
pair C, D (both 1/62) keeping its Map order in the sorted output. -/
theorem rrf_order_deterministic_stable_witness :
    ((keysOf [exA, exB, exC]).Nodup) ∧
    ((⟨1 / 62, "C", ""⟩ : ScoreEntry).score = (⟨1 / 62, "D", ""⟩ : ScoreEntry).score) ∧
    (List.Sublist [(⟨1 / 62, "C", ""⟩ : ScoreEntry), ⟨1 / 62, "D", ""⟩]
      ((fusionEntries [exA, exB, exC] [exB, exA, exD]).map Prod.snd)) ∧
    (List.Sublist [(⟨1 / 62, "C", ""⟩ : ScoreEntry), ⟨1 / 62, "D", ""⟩]
      (sortedEntries [exA, exB, exC] [exB, exA, exD])) := by
  refine ⟨by decide, by decide, by decide, ?_⟩
  exact rrf_order_deterministic_stable.2.2.1 [exA, exB, exC] [exB, exA, exD]
    ⟨1 / 62, "C", ""⟩ ⟨1 / 62, "D", ""⟩ (by decide) (by decide)

end NotesModel
